/-
Verification of the core logic of `file_tree_viewer.py` (kexek/file-tree-viewer).

This file shallowly embeds the tree-building walk (`populate_tree`), the
ignore-pattern matcher (`should_ignore`), the file-content retrieval
(`get_file_content`), the checkbox-selection operations (`toggle_check`,
`update_children_check`, `check_all`, `uncheck_all`) and the text
serializer (`generate_output` / `process_item_for_output`) as executable
Lean definitions, and proves or refutes the specification claims about them.

Python strings are modelled as Lean `String` (a list of characters); the
handful of Python `str`/`os.path` primitives the source uses are modelled
explicitly below, each with a comment naming the Python operation it embeds.
-/
import Mathlib

namespace FTV

/-! ### Python string primitives -/

/-- Model of Python `a.startswith(b)` (no slice arguments). -/
def pyStartsWith (pre s : String) : Bool := List.isPrefixOf pre.data s.data

/-- Model of Python `a.endswith(b)` (no slice arguments). -/
def pyEndsWith (suf s : String) : Bool := List.isSuffixOf suf.data s.data

/-- Model of the Python substring test `sub in s`. -/
def containsSubstr (sub s : String) : Bool :=
  go s.data
where
  go : List Char → Bool
    | [] => List.isPrefixOf sub.data []
    | c :: rest => List.isPrefixOf sub.data (c :: rest) || go rest

/-- Model of Python `s.lower()` (ASCII case folding, which is all the
source's default patterns and the examples in this development use). -/
def pyLower (s : String) : String := ⟨s.data.map Char.toLower⟩

/-- Model of the Python slice `s[1:]`. -/
def pyDropOne (s : String) : String := ⟨s.data.drop 1⟩

/-- Model of Python `s.split('\n')` (single-character separator). -/
def splitLinesPy (s : String) : List String :=
  (go s.data).map (fun l => ⟨l⟩)
where
  go : List Char → List (List Char)
    | [] => [[]]
    | c :: rest =>
      let acc := go rest
      if c == '\n' then [] :: acc
      else match acc with
        | [] => [[c]]
        | h :: t => (c :: h) :: t

/-- Model of Python `'\n'.join(lines)`. -/
def joinNl : List String → String
  | [] => ""
  | [l] => l
  | l :: l2 :: rest => l ++ "\n" ++ joinNl (l2 :: rest)

/-- Model of `os.path.basename` on POSIX paths: everything after the last
`'/'` (the whole string when it has no `'/'`). -/
def basename (s : String) : String :=
  ⟨((s.data.reverse.takeWhile (fun c => !(c == '/'))).reverse)⟩

/-- Model of `os.path.join(p, n)` on POSIX paths for the cases arising in
the walk: a second component that is itself absolute wins; otherwise a
single `'/'` separator is inserted unless `p` is empty or already ends
with `'/'`. -/
def pathJoin (p n : String) : String :=
  if pyStartsWith "/" n then n
  else if p == "" || pyEndsWith "/" p then p ++ n
  else p ++ "/" ++ n

/-- Model of Python `pattern.replace('*', '.*')` (single-character search
string, so occurrences cannot overlap). -/
def starToDotStar (s : String) : String :=
  ⟨s.data.foldr (fun c acc => if c == '*' then '.' :: '*' :: acc else c :: acc) []⟩

/-! ### Model of the regular-expression fallback in `should_ignore`

`should_ignore` calls `re.match(f"^{pattern.replace('*', '.*')}$", filename)`.
After the replacement, every `'*'` in the regex text immediately follows a
`'.'`, so the regexes that actually reach `re.match` are built from literal
characters, `'.'` (any character) and `'.*'` (any sequence).  We model
exactly that fragment; other regex metacharacters (classes, groups,
escapes) are treated as literals, which agrees with `re.match` on every
pattern used in this development. -/

inductive RegexTok where
  | lit (c : Char)
  | anyc
  | star
deriving DecidableEq

/-- Tokenize the regex text: `".*"` becomes `star`, a lone `'.'` becomes
`anyc`, anything else is a literal. -/
def regexLex : List Char → List RegexTok
  | [] => []
  | '.' :: '*' :: rest => .star :: regexLex rest
  | '.' :: rest => .anyc :: regexLex rest
  | c :: rest => .lit c :: regexLex rest

/-- Acceptance of a token list against a character list; `star` consumes an
arbitrary (possibly empty) tail segment. -/
def regexAccepts : List RegexTok → List Char → Bool
  | [], s => s.isEmpty
  | .lit c :: ts, s =>
    match s with
    | [] => false
    | d :: ds => c == d && regexAccepts ts ds
  | .anyc :: ts, s =>
    match s with
    | [] => false
    | _ :: ds => regexAccepts ts ds
  | .star :: ts, s => (s.tails).any (fun s' => regexAccepts ts s')

/-- Model of `re.match(f"^{core}$", s) is not None`: the whole of `s`
matches the regex text `core`. -/
def reFullMatch (core s : String) : Bool := regexAccepts (regexLex core.data) s.data

/-! ### `should_ignore` (file_tree_viewer.py lines 75–95)

The loop over `ignore_patterns` with its four early-return match rules,
applied in source order: exact filename equality, substring of the full
path, `*.ext` suffix rule, anchored regex on the filename. -/

def should_ignore (path : String) (ignore_patterns : List String) : Bool :=
  match ignore_patterns with
  | [] => false
  | pattern :: rest =>
    let filename := basename path
    if pattern == filename then true
    else if containsSubstr pattern path then true
    else if pyStartsWith "*." pattern && pyEndsWith (pyDropOne pattern) filename then true
    else if reFullMatch (starToDotStar pattern) filename then true
    else should_ignore path rest

/-- The declarative form of one pattern matching one path: the OR of the
four match rules of `should_ignore`, as the spec states them. -/
def patternMatches (pattern path : String) : Bool :=
  pattern == basename path
    || containsSubstr pattern path
    || (pyStartsWith "*." pattern && pyEndsWith (pyDropOne pattern) (basename path))
    || reFullMatch (starToDotStar pattern) (basename path)

/-! ### `get_file_content` (file_tree_viewer.py lines 52–73)

The filesystem side of one file read is modelled explicitly: whether the
path is a regular file (`os.path.isfile`), whether it is readable
(`os.access(..., os.R_OK)`), the raw bytes delivered by the binary open
(or the message of the `OSError` it raised), and the replace-decoded text
delivered by the text open (or the message of the `OSError` it raised).
Decoding with `errors='replace'` cannot raise, so undecodable byte
sequences are already substituted inside the `text` payload; the
`except UnicodeDecodeError` arm of the source is unreachable. -/

structure PyFile where
  isFile : Bool
  readable : Bool
  bytes : Except String (List Nat)
  text : Except String String

def unavailSentinel : String := "(Файл недоступен для чтения)"
def binarySentinel : String := "(Бинарный файл, содержимое не отображается)"
def readErrSentinel (e : String) : String := "(Ошибка чтения файла: " ++ e ++ ")"

def get_file_content (f : PyFile) : String :=
  if !(f.isFile && f.readable) then unavailSentinel
  else
    match f.bytes with
    | .error e => readErrSentinel e
    | .ok bs =>
      if (bs.take 8192).contains 0 then binarySentinel
      else
        match f.text with
        | .error e => readErrSentinel e
        | .ok content => content

/-! ### The filesystem model for the walk

`populate_tree` explores a directory through `os.listdir` / `os.path.isdir`.
One directory listing is modelled as a `List FS` in the order `os.listdir`
returned it; names never contain `'/'` in a real listing, but the model
does not bake that in. -/

inductive FS where
  | file (name : String)
  | dir (name : String) (entries : List FS)

def FS.name : FS → String
  | .file n => n
  | .dir n _ => n

/-- Model of `os.path.isdir` on an entry of a listing. -/
def FS.isDir : FS → Bool
  | .file _ => false
  | .dir _ _ => true

/-! ### Stable sorting (Python `list.sort(key=lambda x: x[0].lower())`)

Python's `list.sort` is a stable sort; a stable sort's output is uniquely
determined by the comparator, so the insertion sort below is extensionally
identical to it.  `insertByLt` inserts an element (coming from earlier in
the original list) before the first element that is not strictly below it,
which preserves the original order of equal keys. -/

def insertByLt {α : Type} (lt : α → α → Bool) (x : α) : List α → List α
  | [] => [x]
  | y :: ys => if lt y x then y :: insertByLt lt x ys else x :: y :: ys

def sortByLt {α : Type} (lt : α → α → Bool) : List α → List α
  | [] => []
  | x :: xs => insertByLt lt x (sortByLt lt xs)

/-- Strict lexicographic comparison of character lists by code point:
the model of Python `<` on strings. -/
def charListLt : List Char → List Char → Bool
  | [], [] => false
  | [], _ :: _ => true
  | _ :: _, [] => false
  | a :: as, b :: bs => a < b || (a == b && charListLt as bs)

/-- The sort key comparison of `populate_tree`: case-insensitive name
order (`key=lambda x: x[0].lower()`). -/
def lowerNameLt (a b : FS) : Bool :=
  charListLt (pyLower a.name).data (pyLower b.name).data

/-! ### `populate_tree` (file_tree_viewer.py lines 342–441) -/

/-- The filter applied to each listed entry: drop `.`/`..` and entries
matched by `should_ignore` on their full path. -/
def keepEntry (ignore_patterns : List String) (dirPath : String) (e : FS) : Bool :=
  !(e.name == "." || e.name == "..") &&
    !should_ignore (pathJoin dirPath e.name) ignore_patterns

/-- The entries of one directory in the order the `dirs + files` loop of
`populate_tree` visits them: ignore-filtered, split into directories and
files, each group sorted by case-insensitive name, directories first. -/
def childEntries (ignore_patterns : List String) (dirPath : String)
    (entries : List FS) : List FS :=
  let kept := entries.filter (keepEntry ignore_patterns dirPath)
  sortByLt lowerNameLt (kept.filter FS.isDir) ++
    sortByLt lowerNameLt (kept.filter fun e => !FS.isDir e)

/-- One node of the widget tree, as recorded in `tree_items`: the stored
absolute path, the `is_ignored` flag, and (for directories) the inserted
children.  `err` models the synthetic `tree.insert(..., text="Error: ...")`
placeholder rows, which are inserted into the widget but have no
`tree_items` record.  Node identities (`unique_id` in the source, a
path-hash string) are modelled by the path itself. -/
inductive TreeNode where
  | file (path : String)
  | dir (path : String) (is_ignored : Bool) (children : List TreeNode)
  | err (msg : String)

def TreeNode.path : TreeNode → String
  | .file p => p
  | .dir p _ _ => p
  | .err _ => ""

def TreeNode.is_ignored : TreeNode → Bool
  | .dir _ ign _ => ign
  | _ => false

def TreeNode.isDirNode : TreeNode → Bool
  | .dir _ _ _ => true
  | _ => false

def TreeNode.isFileNode : TreeNode → Bool
  | .file _ => true
  | _ => false

def TreeNode.isErr : TreeNode → Bool
  | .err _ => true
  | _ => false

def TreeNode.children : TreeNode → List TreeNode
  | .dir _ _ ch => ch
  | _ => []

/-- The text of the placeholder row inserted when a listing comes back
empty (empty directory, permission error, or listing exception). -/
def errEmptyMsg : String := "Error: Permission denied or empty directory"

/- Size measures used only for the termination of `populate_tree`. -/
mutual
def fsSize : FS → Nat
  | .file _ => 1
  | .dir _ es => 1 + fsListSize es
def fsListSize : List FS → Nat
  | [] => 0
  | e :: rest => fsSize e + fsListSize rest
end

/- `populate_tree` builds the node rows for one directory whose listing
is `entries`; `buildForest` is its `for item_name, item_path in dirs +
files:` loop.  An empty listing (which `os.listdir` also returns for a
genuinely empty directory, and which the source's `get_all_files` returns
on any `PermissionError`/exception) produces the single synthetic error
row and no recursion.  A directory entry named exactly `node_modules`
becomes an ignored leaf and is not recursed into; every other directory
entry is recursed into. -/
mutual
def buildForest (ignore_patterns : List String) (dirPath : String) :
    List FS → List TreeNode
  | [] => []
  | .file n :: rest =>
    .file (pathJoin dirPath n) :: buildForest ignore_patterns dirPath rest
  | .dir n es :: rest =>
    (if n == "node_modules" then
      TreeNode.dir (pathJoin dirPath n) true []
     else
      TreeNode.dir (pathJoin dirPath n) false
        (populate_tree ignore_patterns (pathJoin dirPath n) es)) ::
      buildForest ignore_patterns dirPath rest
termination_by l => (fsListSize l, 0)
decreasing_by
  · apply Prod.Lex.left
    simp only [fsListSize, fsSize]
    omega
  · apply Prod.Lex.left
    simp only [fsListSize, fsSize]
    omega
  · apply Prod.Lex.left
    simp only [fsListSize, fsSize]
    omega

def populate_tree (ignore_patterns : List String) (dirPath : String)
    (entries : List FS) : List TreeNode :=
  if entries.isEmpty then [.err errEmptyMsg]
  else buildForest ignore_patterns dirPath (childEntries ignore_patterns dirPath entries)
termination_by (fsListSize entries, 1)
decreasing_by
  have hins : ∀ (x : FS) (l : List FS),
      fsListSize (insertByLt lowerNameLt x l) = fsSize x + fsListSize l := by
    intro x l
    induction l with
    | nil => simp [insertByLt, fsListSize]
    | cons y ys ih =>
      rw [insertByLt]
      split
      · rw [fsListSize, ih, fsListSize]
        omega
      · rw [fsListSize, fsListSize]
  have hsort : ∀ (l : List FS),
      fsListSize (sortByLt lowerNameLt l) = fsListSize l := by
    intro l
    induction l with
    | nil => simp [sortByLt]
    | cons x xs ih => rw [sortByLt, hins, ih, fsListSize]
  have happ : ∀ (a b : List FS),
      fsListSize (a ++ b) = fsListSize a + fsListSize b := by
    intro a b
    induction a with
    | nil => simp [fsListSize]
    | cons x xs ih =>
      rw [List.cons_append, fsListSize, fsListSize, ih]
      omega
  have hpart : ∀ (q : FS → Bool) (l : List FS),
      fsListSize (l.filter q) + fsListSize (l.filter fun e => !q e) = fsListSize l := by
    intro q l
    induction l with
    | nil => simp [fsListSize]
    | cons x xs ih =>
      rw [List.filter_cons, List.filter_cons]
      cases hqx : q x with
      | true =>
        simp [hqx, fsListSize]
        omega
      | false =>
        simp [hqx, fsListSize]
        omega
  have hfil : ∀ (q : FS → Bool) (l : List FS),
      fsListSize (l.filter q) ≤ fsListSize l := by
    intro q l
    have := hpart q l
    omega
  have hle : fsListSize (childEntries ignore_patterns dirPath entries) ≤ fsListSize entries := by
    simp only [childEntries, happ, hsort]
    calc fsListSize ((entries.filter (keepEntry ignore_patterns dirPath)).filter FS.isDir) +
          fsListSize ((entries.filter (keepEntry ignore_patterns dirPath)).filter fun e => !FS.isDir e)
        = fsListSize (entries.filter (keepEntry ignore_patterns dirPath)) := hpart _ _
      _ ≤ fsListSize entries := hfil _ _
  rcases lt_or_eq_of_le hle with h | h
  · exact Prod.Lex.left _ _ h
  · rw [h]
    exact Prod.Lex.right _ (by omega)
end

/-! ### The serializer (file_tree_viewer.py lines 574–645)

`process_item_for_output` renders one tree row; its `for i, child_id in
enumerate(children)` loop over a directory's rows is
`process_children_for_output`.  The `is_last` flag passed in by each
caller models `self.tree.next(item_id) == ""`, i.e. whether the row is
the last child (error rows included) of its parent.  File contents are
fetched through the collaborator function `fc`, the model of
`get_file_content` applied to a path at render time.  `checked` models
`self.checked_items`. -/

/-- `"-" * 40`, the separator appended after embedded file content. -/
def sepLine : String := ⟨List.replicate 40 '-'⟩

mutual
def process_item_for_output (fc : String → String) (checked : Finset String)
    (pfx : String) (isLast : Bool) : TreeNode → String
  | .err _ => ""
  | .file path =>
    let name := basename path
    let itemPfx := pfx ++ (if isLast then "└── " else "├── ")
    let childPfx := pfx ++ (if isLast then "    " else "│   ")
    let head := itemPfx ++ name ++ "\n"
    if path ∈ checked then
      head ++ joinNl ((splitLinesPy (fc path)).map (fun line => childPfx ++ line)) ++ "\n" ++
        childPfx ++ sepLine ++ "\n"
    else
      head ++ childPfx ++ "<-- Content skipped -->\n"
  | .dir path ign children =>
    let name := basename path
    let itemPfx := pfx ++ (if isLast then "└── " else "├── ")
    let childPfx := pfx ++ (if isLast then "    " else "│   ")
    let head := itemPfx ++ name ++ "\n"
    if ign then head
    else if pyEndsWith "node_modules" path then
      head ++ childPfx ++ "<-- node_modules (skipped) -->\n"
    else if children.isEmpty then
      head ++ childPfx ++ "(empty directory)\n"
    else
      head ++ process_children_for_output fc checked childPfx children

def process_children_for_output (fc : String → String) (checked : Finset String)
    (childPfx : String) : List TreeNode → String
  | [] => ""
  | c :: rest =>
    (if c.isErr then ""
     else if c.isDirNode || c.path ∈ checked then
      process_item_for_output fc checked childPfx rest.isEmpty c
     else
      childPfx ++ (if rest.isEmpty then "└── " else "├── ") ++ basename c.path ++ "\n" ++
        childPfx ++ (if rest.isEmpty then "    " else "│   ") ++ "<-- Content skipped -->\n") ++
      process_children_for_output fc checked childPfx rest
end

/-- The top-level loop of `generate_output` over the root's rows. -/
def generate_output_items (fc : String → String) (checked : Finset String) :
    List TreeNode → String
  | [] => ""
  | c :: rest =>
    process_item_for_output fc checked "" rest.isEmpty c ++
      generate_output_items fc checked rest

/-- `generate_output` (file_tree_viewer.py lines 574–590), minus the
clipboard/UI side effects: the produced text. -/
def generate_output (fc : String → String) (checked : Finset String)
    (directory : String) (topNodes : List TreeNode) : String :=
  "ContentTree: " ++ directory ++ "\n" ++ generate_output_items fc checked topNodes

/-! ### Selection operations (file_tree_viewer.py lines 471–539)

`self.tree_items.get(item_id)` is modelled by `findNode` over the node
forest; `self.checked_items` by a `Finset String` of node identities
(paths).  The widget's per-row checkbox text (`"✅"`/`"⬜"`) is kept in
lockstep with `checked_items` by every source operation, so reading
`values[0]` in `toggle_check` is modelled by membership in the set. -/

mutual
def findNode : List TreeNode → String → Option TreeNode
  | [], _ => none
  | c :: rest, item_id =>
    match findNodeIn c item_id with
    | some r => some r
    | none => findNode rest item_id

def findNodeIn : TreeNode → String → Option TreeNode
  | .err _, _ => none
  | .file p, item_id => if p == item_id then some (.file p) else none
  | .dir p ign ch, item_id =>
    if p == item_id then some (.dir p ign ch) else findNode ch item_id
end

/- `update_children_check` (lines 495–513): force `checkVal` onto every
non-ignored row below, skipping ignored rows (and everything beneath
them) and error rows. -/
mutual
def update_children_check (checkVal : Bool) : List TreeNode → Finset String → Finset String
  | [], checked => checked
  | c :: rest, checked =>
    update_children_check checkVal rest (update_child_check checkVal c checked)

def update_child_check (checkVal : Bool) : TreeNode → Finset String → Finset String
  | .err _, checked => checked
  | .file p, checked => if checkVal then insert p checked else checked.erase p
  | .dir p ign ch, checked =>
    if ign then checked
    else update_children_check checkVal ch
      (if checkVal then insert p checked else checked.erase p)
end

/-- `toggle_check` (lines 471–493). -/
def toggle_check (t : List TreeNode) (item_id : String) (checked : Finset String) :
    Finset String :=
  match findNode t item_id with
  | none => checked
  | some n =>
    if n.is_ignored then checked
    else
      let newVal : Bool := !(decide (item_id ∈ checked))
      let checked' := if newVal then insert item_id checked else checked.erase item_id
      if n.isDirNode then update_children_check newVal n.children checked' else checked'

/-- `check_all` (lines 515–526): the loop over the top-level rows. -/
def check_all : List TreeNode → Finset String → Finset String
  | [], checked => checked
  | c :: rest, checked =>
    check_all rest
      (match c with
       | .err _ => checked
       | .file p => insert p checked
       | .dir p ign ch =>
         if ign then checked else update_children_check true ch (insert p checked))

/-- `uncheck_all` (lines 528–539). -/
def uncheck_all : List TreeNode → Finset String → Finset String
  | [], checked => checked
  | c :: rest, checked =>
    uncheck_all rest
      (match c with
       | .err _ => checked
       | .file p => checked.erase p
       | .dir p ign ch =>
         if ign then checked else update_children_check false ch (checked.erase p))

/-! ### Derived tree predicates used in the statements -/

/- The identities `update_children_check` reaches: every non-ignored,
non-error row, recursing only below non-ignored directories. -/
mutual
def niPathsN : TreeNode → List String
  | .err _ => []
  | .file p => [p]
  | .dir p ign ch => if ign then [] else p :: niPaths ch

def niPaths : List TreeNode → List String
  | [] => []
  | c :: rest => niPathsN c ++ niPaths rest
end

/- Paths of all ignored rows anywhere in the forest. -/
mutual
def ignoredPathsN : TreeNode → List String
  | .err _ => []
  | .file _ => []
  | .dir p ign ch => (if ign then [p] else []) ++ ignoredPaths ch

def ignoredPaths : List TreeNode → List String
  | [] => []
  | c :: rest => ignoredPathsN c ++ ignoredPaths rest
end

/- Paths of all non-error rows anywhere in the forest. -/
mutual
def allPathsN : TreeNode → List String
  | .err _ => []
  | .file p => [p]
  | .dir p _ ch => p :: allPaths ch

def allPaths : List TreeNode → List String
  | [] => []
  | c :: rest => allPathsN c ++ allPaths rest
end

/- The structural invariant of walk-produced trees: an ignored directory
row has no children (the walk never recursed into it). -/
mutual
def wfTreeN : TreeNode → Bool
  | .err _ => true
  | .file _ => true
  | .dir _ ign ch => (if ign then ch.isEmpty else true) && wfTree ch

def wfTree : List TreeNode → Bool
  | [] => true
  | c :: rest => wfTreeN c && wfTree rest
end

end FTV

/-! ## Claim C7: `should_ignore` is the OR of the four match rules -/

/-- Unrolling one step of the `should_ignore` loop: a step either matches
the head pattern by one of the four rules or continues with the rest. -/
theorem FTV.should_ignore_cons (path q : String) (rest : List String) :
    FTV.should_ignore path (q :: rest) =
      (FTV.patternMatches q path || FTV.should_ignore path rest) := by
  simp only [FTV.should_ignore, FTV.patternMatches]
  split_ifs <;> simp_all

/-- **C7.** For every path and every pattern list, `should_ignore`
returns `true` if and only if some pattern in the list satisfies at least
one of: exact basename equality, substring of the full path, the `*.ext`
suffix rule, or the anchored star-regex match on the basename. -/
theorem C7_should_ignore_iff_exists (path : String) (patterns : List String) :
    FTV.should_ignore path patterns = true ↔
      ∃ p ∈ patterns, FTV.patternMatches p path = true := by
  induction patterns with
  | nil => simp [FTV.should_ignore]
  | cons q rest ih =>
    rw [FTV.should_ignore_cons, Bool.or_eq_true, ih, List.exists_mem_cons_iff]

/-! ## Claim C9: content retrieval is total and sentinel-based -/

/-- **C9.** Content retrieval never fails: it is a total function of the
file state.  A nonexistent or unreadable file yields the fixed
unavailable-sentinel; a read error on the binary probe yields the error
sentinel with the error text; a null byte among the first 8192 bytes
yields the fixed binary-file sentinel; a read error on the (replace-decoded)
text read yields the error sentinel with the error text; otherwise the
replace-decoded text itself is returned. -/
theorem C9_get_file_content_cases (f : FTV.PyFile) :
    (¬(f.isFile = true ∧ f.readable = true) →
      FTV.get_file_content f = FTV.unavailSentinel)
    ∧ (∀ e : String, f.isFile = true → f.readable = true → f.bytes = .error e →
        FTV.get_file_content f = FTV.readErrSentinel e)
    ∧ (∀ bs : List Nat, f.isFile = true → f.readable = true → f.bytes = .ok bs →
        0 ∈ bs.take 8192 →
        FTV.get_file_content f = FTV.binarySentinel)
    ∧ (∀ (bs : List Nat) (e : String), f.isFile = true → f.readable = true →
        f.bytes = .ok bs → 0 ∉ bs.take 8192 → f.text = .error e →
        FTV.get_file_content f = FTV.readErrSentinel e)
    ∧ (∀ (bs : List Nat) (c : String), f.isFile = true → f.readable = true →
        f.bytes = .ok bs → 0 ∉ bs.take 8192 → f.text = .ok c →
        FTV.get_file_content f = c) := by
  obtain ⟨fi, fr, fb, ft⟩ := f
  refine ⟨?_, ?_, ?_, ?_, ?_⟩
  · intro h
    rcases Bool.eq_false_or_eq_true fi with hfi | hfi
    · subst hfi
      rcases Bool.eq_false_or_eq_true fr with hfr | hfr
      · subst hfr; exact absurd ⟨rfl, rfl⟩ h
      · subst hfr; simp [FTV.get_file_content]
    · subst hfi; simp [FTV.get_file_content]
  · rintro e rfl rfl rfl
    simp [FTV.get_file_content]
  · rintro bs rfl rfl rfl hz
    simp [FTV.get_file_content, hz]
  · rintro bs e rfl rfl rfl hz rfl
    simp [FTV.get_file_content, hz]
  · rintro bs c rfl rfl rfl hz rfl
    simp [FTV.get_file_content, hz]

/-- Witness for C9: each branch of the case analysis realized on a
concrete file state. -/
theorem C9_witness :
    FTV.get_file_content ⟨false, true, .ok [], .ok "x"⟩ = FTV.unavailSentinel
    ∧ FTV.get_file_content ⟨true, true, .error "boom", .ok "w"⟩ = FTV.readErrSentinel "boom"
    ∧ FTV.get_file_content ⟨true, true, .ok [104, 0], .ok "w"⟩ = FTV.binarySentinel
    ∧ FTV.get_file_content ⟨true, true, .ok [104], .error "gone"⟩ = FTV.readErrSentinel "gone"
    ∧ FTV.get_file_content ⟨true, true, .ok [104], .ok "h"⟩ = "h" :=
  ⟨(C9_get_file_content_cases _).1 (by simp),
   (C9_get_file_content_cases _).2.1 "boom" rfl rfl rfl,
   (C9_get_file_content_cases _).2.2.1 [104, 0] rfl rfl rfl (by decide),
   (C9_get_file_content_cases _).2.2.2.1 [104] "gone" rfl rfl rfl (by decide) rfl,
   (C9_get_file_content_cases _).2.2.2.2 [104] "h" rfl rfl rfl (by decide) rfl⟩

/-! ## Claim C2: the (absent) maximum-line cap of content retrieval -/

/-- **C2 (counterexample).** `get_file_content` takes no line cap at all:
for a readable 51-line text file it returns all 51 lines unmodified and
appends no truncation marker, contradicting the claimed
"at most N content lines plus one truncation marker" behavior for the
claimed default N = 50. -/
theorem C2_counterexample :
    FTV.get_file_content
        ⟨true, true, .ok [120], .ok (FTV.joinNl (List.replicate 51 "x"))⟩
      = FTV.joinNl (List.replicate 51 "x")
    ∧ (FTV.splitLinesPy (FTV.joinNl (List.replicate 51 "x"))).length = 51
    ∧ ∀ line ∈ FTV.splitLinesPy (FTV.joinNl (List.replicate 51 "x")), line = "x" :=
  ⟨rfl, by decide, by decide⟩

/-- **C2 (amended).** Content retrieval applies no maximum line count:
whenever the reads succeed and the binary heuristic does not fire, the
full replace-decoded content is returned unmodified, regardless of how
many lines it has, and no truncation marker is ever appended. -/
theorem C2_amended_no_line_cap (f : FTV.PyFile) (bs : List Nat) (c : String)
    (hfi : f.isFile = true) (hfr : f.readable = true) (hb : f.bytes = .ok bs)
    (hz : 0 ∉ bs.take 8192) (ht : f.text = .ok c) :
    FTV.get_file_content f = c := by
  obtain ⟨fi, fr, fb, ft⟩ := f
  cases hfi; cases hfr; cases hb; cases ht
  simp [FTV.get_file_content, hz]

/-- Witness for the amended C2: the 51-line file is returned whole. -/
theorem C2_amended_witness :
    FTV.get_file_content
        ⟨true, true, .ok [120], .ok (FTV.joinNl (List.replicate 51 "x"))⟩
      = FTV.joinNl (List.replicate 51 "x") :=
  C2_amended_no_line_cap _ [120] _ rfl rfl rfl (by decide) rfl

/-! ## Claim C6: the byte-exact rendering format -/

/-- **C6.** Connector and prefix discipline of the renderer: a last
sibling uses the terminal connector and contributes only indentation to
its children's prefix, a non-last sibling uses the branch connector and
extends the vertical guide; a checked file's content lines are each
individually prefixed with the child prefix and followed by a separator
line of exactly 40 `-` characters; an unchecked file is followed by a
single content-skipped placeholder line (both when rendered directly and
when inlined by the parent directory's loop). -/
theorem C6_render_format :
    (∀ (fc : String → String) (checked : Finset String) (pfx : String) (isLast : Bool)
        (path : String), path ∈ checked →
      FTV.process_item_for_output fc checked pfx isLast (.file path) =
        pfx ++ (if isLast then "└── " else "├── ") ++ FTV.basename path ++ "\n" ++
          FTV.joinNl ((FTV.splitLinesPy (fc path)).map
            (fun line => pfx ++ (if isLast then "    " else "│   ") ++ line)) ++ "\n" ++
          (pfx ++ (if isLast then "    " else "│   ")) ++ FTV.sepLine ++ "\n")
    ∧ (∀ (fc : String → String) (checked : Finset String) (pfx : String) (isLast : Bool)
        (path : String), path ∉ checked →
      FTV.process_item_for_output fc checked pfx isLast (.file path) =
        pfx ++ (if isLast then "└── " else "├── ") ++ FTV.basename path ++ "\n" ++
          (pfx ++ (if isLast then "    " else "│   ")) ++ "<-- Content skipped -->\n")
    ∧ FTV.sepLine.data.length = 40 ∧ (∀ ch ∈ FTV.sepLine.data, ch = '-')
    ∧ (∀ (fc : String → String) (checked : Finset String) (pfx : String) (isLast : Bool)
        (path : String) (children : List FTV.TreeNode),
        FTV.pyEndsWith "node_modules" path = false → children ≠ [] →
      FTV.process_item_for_output fc checked pfx isLast (.dir path false children) =
        pfx ++ (if isLast then "└── " else "├── ") ++ FTV.basename path ++ "\n" ++
          FTV.process_children_for_output fc checked
            (pfx ++ (if isLast then "    " else "│   ")) children)
    ∧ (∀ (fc : String → String) (checked : Finset String) (childPfx : String)
        (p : String) (rest : List FTV.TreeNode), p ∉ checked →
      FTV.process_children_for_output fc checked childPfx (.file p :: rest) =
        childPfx ++ (if rest.isEmpty then "└── " else "├── ") ++ FTV.basename p ++ "\n" ++
          childPfx ++ (if rest.isEmpty then "    " else "│   ") ++ "<-- Content skipped -->\n" ++
          FTV.process_children_for_output fc checked childPfx rest) := by
  refine ⟨?_, ?_, by decide, by decide, ?_, ?_⟩
  · intro fc checked pfx isLast path h
    simp only [FTV.process_item_for_output]
    rw [if_pos h]
  · intro fc checked pfx isLast path h
    simp only [FTV.process_item_for_output]
    rw [if_neg h]
  · intro fc checked pfx isLast path children hm hne
    simp only [FTV.process_item_for_output]
    rw [if_neg (by simp), if_neg (by simp [hm]), if_neg (by simp [List.isEmpty_iff, hne])]
  · intro fc checked childPfx p rest h
    simp only [FTV.process_children_for_output]
    rw [if_neg (by simp [FTV.TreeNode.isErr]),
      if_neg (by simp [FTV.TreeNode.isDirNode, FTV.TreeNode.path, h])]
    rfl

/-- Witness for C6: each clause realized on concrete rows. -/
theorem C6_witness :
    ("/r/a.txt" ∈ ({"/r/a.txt"} : Finset String))
    ∧ FTV.process_item_for_output (fun _ => "l1\nl2") {"/r/a.txt"} "" true (.file "/r/a.txt") =
        "└── a.txt\n    l1\n    l2\n    ----------------------------------------\n"
    ∧ FTV.process_item_for_output (fun _ => "l1\nl2") ∅ "" false (.file "/r/a.txt") =
        "├── a.txt\n│   <-- Content skipped -->\n"
    ∧ FTV.process_item_for_output (fun _ => "") ∅ "" true
        (.dir "/r/d" false [.file "/r/d/x"]) =
        "└── d\n    └── x\n        <-- Content skipped -->\n"
    ∧ FTV.process_children_for_output (fun _ => "") ∅ "│   " [.file "/r/b"] =
        "│   └── b\n│       <-- Content skipped -->\n" :=
  ⟨by decide,
   ((C6_render_format.1 (fun _ => "l1\nl2") {"/r/a.txt"} "" true "/r/a.txt" (by decide))).trans rfl,
   ((C6_render_format.2.1 (fun _ => "l1\nl2") ∅ "" false "/r/a.txt" (by decide))).trans rfl,
   ((C6_render_format.2.2.2.2.1 (fun _ => "") ∅ "" true "/r/d" [.file "/r/d/x"]
      (by decide) (List.cons_ne_nil _ _))).trans rfl,
   ((C6_render_format.2.2.2.2.2 (fun _ => "") ∅ "│   " "/r/b" [] (by decide))).trans rfl⟩

/-! ## Claim C3: rendering of ignored directories -/

/-- **C3 (counterexample).** An ignored directory row — here the
`node_modules` row exactly as the walk produces it — renders as its bare
name line with no skipped-content placeholder line at all: the renderer's
directory branch requires `not is_ignored`, so an ignored row falls
through both branches.  The output contains no occurrence of "skipped". -/
theorem C3_counterexample :
    FTV.process_item_for_output (fun _ => "") ∅ "" true
        (.dir "/r/node_modules" true []) = "└── node_modules\n"
    ∧ FTV.containsSubstr "skipped"
        (FTV.process_item_for_output (fun _ => "") ∅ "" true
          (.dir "/r/node_modules" true [])) = false :=
  ⟨rfl, by decide⟩

/-- **C3 (amended).** A Directory row whose `is_ignored` flag is set
renders as exactly its name line: no placeholder line follows and its
contents are never descended into.  (The `<-- node_modules (skipped) -->`
placeholder is emitted only for non-ignored directories whose path ends
with `node_modules`; see C10.) -/
theorem C3_amended_ignored_dir_name_line_only (fc : String → String)
    (checked : Finset String) (pfx : String) (isLast : Bool) (path : String)
    (children : List FTV.TreeNode) :
    FTV.process_item_for_output fc checked pfx isLast (.dir path true children) =
      pfx ++ (if isLast then "└── " else "├── ") ++ FTV.basename path ++ "\n" := by
  simp only [FTV.process_item_for_output]
  rw [if_pos trivial]

/-! ## Claim C10: non-ignored directories whose path ends in `node_modules` -/

/-- **C10.** A Directory row that is not marked ignored but whose stored
path ends with the string `node_modules` renders as its name line plus
the single `<-- node_modules (skipped) -->` placeholder line and none of
its children — even though (second conjunct) the walk recurses into any
directory entry not named exactly `node_modules`, so such a row's
children are present in the tree. -/
theorem C10_node_modules_path_suffix
    (fc : String → String) (checked : Finset String) (pfx : String) (isLast : Bool)
    (path : String) (children : List FTV.TreeNode)
    (hm : FTV.pyEndsWith "node_modules" path = true) :
    (FTV.process_item_for_output fc checked pfx isLast (.dir path false children) =
      pfx ++ (if isLast then "└── " else "├── ") ++ FTV.basename path ++ "\n" ++
        (pfx ++ (if isLast then "    " else "│   ")) ++ "<-- node_modules (skipped) -->\n")
    ∧ ∀ (ps : List String) (p n : String) (es rest : List FTV.FS),
        (n == "node_modules") = false →
        FTV.buildForest ps p (.dir n es :: rest) =
          .dir (FTV.pathJoin p n) false
              (FTV.populate_tree ps (FTV.pathJoin p n) es) ::
            FTV.buildForest ps p rest := by
  constructor
  · simp only [FTV.process_item_for_output]
    rw [if_neg (by simp), if_pos hm]
  · intro ps p n es rest hn
    rw [FTV.buildForest, if_neg (by simp [hn])]

/-- Witness for C10: the directory `my_node_modules` is not named
`node_modules`, so the walk recurses into it and its child is present in
the built tree, yet rendering collapses it to the placeholder. -/
theorem C10_witness :
    FTV.pyEndsWith "node_modules" "/r/my_node_modules" = true
    ∧ FTV.process_item_for_output (fun _ => "") ∅ "" true
        (.dir "/r/my_node_modules" false [.file "/r/my_node_modules/x.js"]) =
        "└── my_node_modules\n    <-- node_modules (skipped) -->\n"
    ∧ FTV.buildForest [] "/r" [.dir "my_node_modules" [.file "x.js"]] =
        [.dir "/r/my_node_modules" false [.file "/r/my_node_modules/x.js"]] := by
  refine ⟨by decide, ?_, ?_⟩
  · exact (C10_node_modules_path_suffix (fun _ => "") ∅ "" true "/r/my_node_modules"
      [.file "/r/my_node_modules/x.js"] (by decide)).1.trans rfl
  · rw [(C10_node_modules_path_suffix (fun _ => "") ∅ "" true "/r/my_node_modules"
      [] (by decide)).2 [] "/r" "my_node_modules" [.file "x.js"] [] (by decide)]
    rw [FTV.populate_tree, if_neg (by decide)]
    show FTV.TreeNode.dir (FTV.pathJoin "/r" "my_node_modules") false
        (FTV.buildForest [] (FTV.pathJoin "/r" "my_node_modules") [.file "x.js"]) ::
      FTV.buildForest [] "/r" [] = _
    rw [FTV.buildForest, FTV.buildForest, FTV.buildForest]
    rfl

/-! ## Claim C4: empty directories -/

/-- **C4 (counterexample).** A genuinely empty, readable, non-ignored
directory is *not* recorded as an ordinary childless directory node: its
empty listing makes the walk insert a synthetic error row
(`Error: Permission denied or empty directory`) beneath it.  That error
row has no `tree_items` record, so rendering the directory produces its
name line and nothing else — no `(empty directory)` placeholder line
appears anywhere in the output. -/
theorem C4_counterexample :
    FTV.populate_tree [] "/r" [.dir "sub" []] =
      [.dir "/r/sub" false [.err FTV.errEmptyMsg]]
    ∧ FTV.generate_output (fun _ => "") ∅ "/r"
        [.dir "/r/sub" false [.err FTV.errEmptyMsg]] = "ContentTree: /r\n└── sub\n"
    ∧ FTV.containsSubstr "(empty directory)"
        (FTV.generate_output (fun _ => "") ∅ "/r"
          [.dir "/r/sub" false [.err FTV.errEmptyMsg]]) = false := by
  refine ⟨?_, rfl, by decide⟩
  rw [FTV.populate_tree, if_neg (by decide)]
  show FTV.buildForest [] "/r" [.dir "sub" []] = _
  rw [FTV.buildForest, if_neg (by decide), FTV.populate_tree, if_pos (by decide),
    FTV.buildForest]
  rfl

/-- **C4 (amended).** An empty listing produces the single synthetic
error row instead of a childless directory node; a directory rendered
with an error-only child shows its name line and nothing below it.  The
`(empty directory)` placeholder line is emitted exactly by non-ignored
directory rows whose child list is empty — which the walk produces when a
directory's entries were listed but all filtered out (last conjunct shows
such a case: a directory whose only entry matches `*.txt`). -/
theorem C4_amended_empty_listing_behavior :
    (∀ (ps : List String) (p : String),
      FTV.populate_tree ps p [] = [.err FTV.errEmptyMsg])
    ∧ (∀ (fc : String → String) (checked : Finset String) (pfx : String)
        (isLast : Bool) (path : String), FTV.pyEndsWith "node_modules" path = false →
      FTV.process_item_for_output fc checked pfx isLast (.dir path false []) =
        pfx ++ (if isLast then "└── " else "├── ") ++ FTV.basename path ++ "\n" ++
          (pfx ++ (if isLast then "    " else "│   ")) ++ "(empty directory)\n")
    ∧ (∀ (fc : String → String) (checked : Finset String) (pfx : String)
        (isLast : Bool) (path m : String), FTV.pyEndsWith "node_modules" path = false →
      FTV.process_item_for_output fc checked pfx isLast (.dir path false [.err m]) =
        pfx ++ (if isLast then "└── " else "├── ") ++ FTV.basename path ++ "\n")
    ∧ FTV.populate_tree ["*.txt"] "/r" [.dir "d" [.file "a.txt"]] =
        [.dir "/r/d" false []] := by
  refine ⟨?_, ?_, ?_, ?_⟩
  · intro ps p
    rw [FTV.populate_tree, if_pos (by rfl)]
  · intro fc checked pfx isLast path hm
    simp only [FTV.process_item_for_output]
    rw [if_neg (by simp), if_neg (by simp [hm]), if_pos (by rfl)]
  · intro fc checked pfx isLast path m hm
    simp only [FTV.process_item_for_output]
    rw [if_neg (by simp), if_neg (by simp [hm]), if_neg (by simp)]
    have hpc : FTV.process_children_for_output fc checked
        (pfx ++ (if isLast then "    " else "│   ")) [.err m] = "" := rfl
    rw [hpc, String.append_empty]
  · rw [FTV.populate_tree, if_neg (by decide)]
    show FTV.buildForest ["*.txt"] "/r" [.dir "d" [.file "a.txt"]] = _
    rw [FTV.buildForest, if_neg (by decide), FTV.populate_tree, if_neg (by decide)]
    show FTV.TreeNode.dir (FTV.pathJoin "/r" "d") false
        (FTV.buildForest ["*.txt"] (FTV.pathJoin "/r" "d") []) ::
      FTV.buildForest ["*.txt"] "/r" [] = _
    rw [FTV.buildForest, FTV.buildForest]
    rfl

/-- Witness for the amended C4. -/
theorem C4_amended_witness :
    FTV.populate_tree [] "/r/sub" [] = [.err FTV.errEmptyMsg]
    ∧ FTV.process_item_for_output (fun _ => "") ∅ "" true (.dir "/r/d" false []) =
        "└── d\n    (empty directory)\n"
    ∧ FTV.process_item_for_output (fun _ => "") ∅ "" true
        (.dir "/r/sub" false [.err FTV.errEmptyMsg]) = "└── sub\n" :=
  ⟨C4_amended_empty_listing_behavior.1 [] "/r/sub",
   (C4_amended_empty_listing_behavior.2.1 (fun _ => "") ∅ "" true "/r/d"
      (by decide)).trans rfl,
   (C4_amended_empty_listing_behavior.2.2.1 (fun _ => "") ∅ "" true "/r/sub"
      FTV.errEmptyMsg (by decide)).trans rfl⟩

/-! ## Sorting lemmas shared by C1 and C8 -/

/-- Inserting with `insertByLt` is a permutation of consing. -/
theorem FTV.insertByLt_perm {α : Type} (lt : α → α → Bool) (x : α) (l : List α) :
    List.Perm (FTV.insertByLt lt x l) (x :: l) := by
  induction l with
  | nil => rfl
  | cons y ys ih =>
    rw [FTV.insertByLt]
    split
    · exact (List.Perm.cons y ih).trans (List.Perm.swap x y ys)
    · rfl

/-- `sortByLt` permutes its input. -/
theorem FTV.sortByLt_perm {α : Type} (lt : α → α → Bool) (l : List α) :
    List.Perm (FTV.sortByLt lt l) l := by
  induction l with
  | nil => rfl
  | cons x xs ih =>
    rw [FTV.sortByLt]
    exact (FTV.insertByLt_perm lt x (FTV.sortByLt lt xs)).trans (List.Perm.cons x ih)

/-! ## Claim C1: what the walk does with ignored entries -/

/-- **C1 (counterexample).** An immediate entry matching an ignore
pattern does not appear in the built tree at all — it is skipped by the
walk, not recorded as an ignored leaf.  Here `__pycache__` matches the
pattern list `["__pycache__"]`, yet the built tree holds only the node
for `a.txt`: no node with path `/r/__pycache__` exists anywhere in it. -/
theorem C1_counterexample :
    FTV.should_ignore "/r/__pycache__" ["__pycache__"] = true
    ∧ FTV.populate_tree ["__pycache__"] "/r" [.dir "__pycache__" [.file "x"], .file "a.txt"] =
        [.file "/r/a.txt"]
    ∧ (FTV.allPaths (FTV.populate_tree ["__pycache__"] "/r"
        [.dir "__pycache__" [.file "x"], .file "a.txt"])).contains "/r/__pycache__" = false := by
  have hp : FTV.populate_tree ["__pycache__"] "/r"
      [.dir "__pycache__" [.file "x"], .file "a.txt"] = [.file "/r/a.txt"] := by
    rw [FTV.populate_tree, if_neg (by decide)]
    show FTV.buildForest ["__pycache__"] "/r" [.file "a.txt"] = _
    rw [FTV.buildForest, FTV.buildForest]
    rfl
  refine ⟨by decide, hp, ?_⟩
  rw [hp]
  decide

/-- **C1 (amended).** Every child the walk emits for a listed directory
comes from an entry of that directory that `should_ignore` does *not*
match (ignore-matched entries are omitted from the tree entirely), and
the emitted nodes' paths are exactly the joined paths of those visited
entries; only a directory entry named exactly `node_modules` becomes a
node with `is_ignored = true` and empty children, never recursed into,
while still appearing in the tree. -/
theorem C1_amended_ignored_entries_omitted :
    (∀ (ps : List String) (p : String) (entries : List FTV.FS) (e : FTV.FS),
      e ∈ FTV.childEntries ps p entries →
      e ∈ entries ∧ FTV.should_ignore (FTV.pathJoin p e.name) ps = false)
    ∧ (∀ (ps : List String) (p : String) (es rest : List FTV.FS),
      FTV.buildForest ps p (.dir "node_modules" es :: rest) =
        .dir (FTV.pathJoin p "node_modules") true [] :: FTV.buildForest ps p rest)
    ∧ (∀ (ps : List String) (p : String) (l : List FTV.FS),
      (FTV.buildForest ps p l).map FTV.TreeNode.path =
        l.map (fun e => FTV.pathJoin p e.name))
    ∧ (∀ (ps : List String) (p : String) (entries : List FTV.FS),
      entries.isEmpty = false →
      FTV.populate_tree ps p entries =
        FTV.buildForest ps p (FTV.childEntries ps p entries)) := by
  refine ⟨?_, ?_, ?_, ?_⟩
  · intro ps p entries e he
    rw [FTV.childEntries] at he
    rcases List.mem_append.mp he with h | h
    · have h' := (FTV.sortByLt_perm FTV.lowerNameLt _).mem_iff.mp h
      have h'' := List.mem_filter.mp h'
      have h3 := List.mem_filter.mp h''.1
      refine ⟨h3.1, ?_⟩
      have := h3.2
      rw [FTV.keepEntry, Bool.and_eq_true] at this
      simpa using this.2
    · have h' := (FTV.sortByLt_perm FTV.lowerNameLt _).mem_iff.mp h
      have h'' := List.mem_filter.mp h'
      have h3 := List.mem_filter.mp h''.1
      refine ⟨h3.1, ?_⟩
      have := h3.2
      rw [FTV.keepEntry, Bool.and_eq_true] at this
      simpa using this.2
  · intro ps p es rest
    rw [FTV.buildForest, if_pos (by rfl)]
  · intro ps p l
    induction l with
    | nil => rw [FTV.buildForest]; rfl
    | cons e rest ih =>
      cases e with
      | file n =>
        rw [FTV.buildForest, List.map_cons, List.map_cons, ih]
        rfl
      | dir n es =>
        rw [FTV.buildForest, List.map_cons, List.map_cons, ih]
        by_cases hn : (n == "node_modules") = true
        · rw [if_pos hn]
          rfl
        · rw [if_neg hn]
          rfl
  · intro ps p entries h
    rw [FTV.populate_tree, if_neg (by simp [h])]

/-- Witness for the amended C1: the kept entry `a.txt` of the
counterexample's directory is certified non-ignored by the theorem. -/
theorem C1_amended_witness :
    (FTV.FS.file "a.txt" ∈ ([.dir "__pycache__" [.file "x"], .file "a.txt"] : List FTV.FS)
      ∧ FTV.should_ignore (FTV.pathJoin "/r" (FTV.FS.file "a.txt").name) ["__pycache__"] = false)
    ∧ FTV.buildForest ["__pycache__"] "/r" [.dir "node_modules" [.file "y"]] =
        [.dir "/r/node_modules" true []] := by
  constructor
  · exact C1_amended_ignored_entries_omitted.1 ["__pycache__"] "/r"
      [.dir "__pycache__" [.file "x"], .file "a.txt"] (FTV.FS.file "a.txt")
      (show FTV.FS.file "a.txt" ∈
        FTV.childEntries ["__pycache__"] "/r" [.dir "__pycache__" [.file "x"], .file "a.txt"]
        from List.mem_singleton.mpr rfl)
  · rw [C1_amended_ignored_entries_omitted.2.1 ["__pycache__"] "/r" [.file "y"] [],
      FTV.buildForest]
    rfl

/-! ## Claim C8: children are dirs-then-files, each group sorted -/

/-- Transitivity of the strict code-point order on character lists. -/

theorem FTV.charListLt_trans : ∀ (a b c : List Char),
    charListLt a b = true → charListLt b c = true → charListLt a c = true := by
  intro a
  induction a with
  | nil =>
    intro b c hab hbc
    cases b with
    | nil => exact absurd hab (by simp [charListLt])
    | cons y ys =>
      cases c with
      | nil => exact absurd hbc (by simp [charListLt])
      | cons z zs => simp [charListLt]
  | cons x xs ih =>
    intro b c hab hbc
    cases b with
    | nil => exact absurd hab (by simp [charListLt])
    | cons y ys =>
      cases c with
      | nil => exact absurd hbc (by simp [charListLt])
      | cons z zs =>
        simp only [charListLt, Bool.or_eq_true, Bool.and_eq_true, beq_iff_eq,
          decide_eq_true_eq] at hab hbc ⊢
        rcases hab with h1 | ⟨h1, h1r⟩ <;> rcases hbc with h2 | ⟨h2, h2r⟩
        · exact Or.inl (lt_trans h1 h2)
        · exact Or.inl (h2 ▸ h1)
        · exact Or.inl (h1 ▸ h2)
        · exact Or.inr ⟨h1.trans h2, ih ys zs h1r h2r⟩

/-- Irreflexivity of `charListLt`. -/
theorem FTV.charListLt_irrefl : ∀ (a : List Char), charListLt a a = false := by
  intro a
  induction a with
  | nil => simp [charListLt]
  | cons x xs ih => simp [charListLt, ih]

/-- Two lists neither of which is below the other are equal. -/
theorem FTV.charListLt_conn : ∀ (a b : List Char),
    charListLt a b = false → charListLt b a = false → a = b := by
  intro a
  induction a with
  | nil =>
    intro b hab _
    cases b with
    | nil => rfl
    | cons y ys => exact absurd hab (by simp [charListLt])
  | cons x xs ih =>
    intro b hab hba
    cases b with
    | nil => exact absurd hba (by simp [charListLt])
    | cons y ys =>
      simp only [charListLt, Bool.or_eq_false_iff, Bool.and_eq_false_iff] at hab hba
      obtain ⟨hxy, hrest⟩ := hab
      obtain ⟨hyx, hrest'⟩ := hba
      have hxy' : ¬ x < y := by simpa using hxy
      have hyx' : ¬ y < x := by simpa using hyx
      have hx : x = y := le_antisymm (not_lt.mp hyx') (not_lt.mp hxy')
      subst hx
      rcases hrest with h | h
      · simp at h
      · rcases hrest' with h' | h'
        · simp at h'
        · rw [ih ys h h']

/-- Asymmetry of `charListLt`. -/
theorem FTV.charListLt_asymm (a b : List Char) (h : charListLt a b = true) :
    charListLt b a = false := by
  cases hba : charListLt b a with
  | false => rfl
  | true =>
    have := charListLt_trans a b a h hba
    rw [charListLt_irrefl a] at this
    exact absurd this (by simp)

/-- Transitivity of the complement order `fun a b => charListLt b a = false`. -/
theorem FTV.charListLt_le_trans (a b c : List Char)
    (h1 : charListLt b a = false) (h2 : charListLt c b = false) :
    charListLt c a = false := by
  cases hca : charListLt c a with
  | false => rfl
  | true =>
    cases hbc : charListLt b c with
    | true =>
      have := charListLt_trans b c a hbc hca
      rw [this] at h1
      exact absurd h1 (by simp)
    | false =>
      have hbceq : b = c := charListLt_conn b c hbc h2
      rw [hbceq, hca] at h1
      exact absurd h1 (by simp)

/-- `insertByLt` preserves sortedness with respect to the complement order. -/
theorem FTV.insertByLt_sorted {α : Type} (lt : α → α → Bool)
    (hasymm : ∀ a b, lt a b = true → lt b a = false)
    (hletrans : ∀ a b c, lt b a = false → lt c b = false → lt c a = false)
    (x : α) (l : List α) (hl : List.Pairwise (fun a b => lt b a = false) l) :
    List.Pairwise (fun a b => lt b a = false) (insertByLt lt x l) := by
  induction l with
  | nil => simp [insertByLt]
  | cons y ys ih =>
    rw [insertByLt]
    rcases List.pairwise_cons.mp hl with ⟨hy, hys⟩
    by_cases hlt : lt y x = true
    · rw [if_pos hlt]
      refine List.pairwise_cons.mpr ⟨?_, ih hys⟩
      intro z hz
      rcases List.mem_cons.mp ((insertByLt_perm lt x ys).mem_iff.mp hz) with hzx | hzys
      · rw [hzx]
        exact hasymm y x hlt
      · exact hy z hzys
    · rw [if_neg hlt]
      have hyx : lt y x = false := by simp_all
      refine List.pairwise_cons.mpr ⟨?_, hl⟩
      intro z hz
      rcases List.mem_cons.mp hz with hzy | hzys
      · rw [hzy]
        exact hyx
      · exact hletrans x y z hyx (hy z hzys)

/-- `sortByLt` sorts with respect to the complement order. -/
theorem FTV.sortByLt_sorted {α : Type} (lt : α → α → Bool)
    (hasymm : ∀ a b, lt a b = true → lt b a = false)
    (hletrans : ∀ a b c, lt b a = false → lt c b = false → lt c a = false)
    (l : List α) :
    List.Pairwise (fun a b => lt b a = false) (sortByLt lt l) := by
  induction l with
  | nil => simp [sortByLt]
  | cons x xs ih => exact insertByLt_sorted lt hasymm hletrans x (sortByLt lt xs) ih

/-- Asymmetry of the case-insensitive name order on entries. -/
theorem FTV.lowerNameLt_asymm (a b : FS) (h : lowerNameLt a b = true) :
    lowerNameLt b a = false :=
  charListLt_asymm _ _ h

/-- Transitivity of the complement case-insensitive name order. -/
theorem FTV.lowerNameLt_le_trans (a b c : FS)
    (h1 : lowerNameLt b a = false) (h2 : lowerNameLt c b = false) :
    lowerNameLt c a = false :=
  charListLt_le_trans _ _ _ h1 h2

/-- The node-building loop distributes over list append. -/
theorem FTV.buildForest_append (ps : List String) (p : String) (a b : List FS) :
    buildForest ps p (a ++ b) = buildForest ps p a ++ buildForest ps p b := by
  induction a with
  | nil => rw [FTV.buildForest]; rfl
  | cons e rest ih =>
    cases e with
    | file n =>
      rw [List.cons_append, FTV.buildForest, FTV.buildForest, ih, List.cons_append]
    | dir n es =>
      rw [List.cons_append, FTV.buildForest, FTV.buildForest, ih, List.cons_append]

/-- Building from directory entries yields directory rows only. -/
theorem FTV.buildForest_all_dir (ps : List String) (p : String) (l : List FS)
    (hl : ∀ e ∈ l, FS.isDir e = true) :
    ∀ t ∈ buildForest ps p l, t.isDirNode = true := by
  induction l with
  | nil =>
    rw [FTV.buildForest]
    intro t ht
    exact absurd ht (List.not_mem_nil t)
  | cons e rest ih =>
    cases e with
    | file n =>
      exact absurd (hl (.file n) (List.mem_cons_self _ _)) (by simp [FS.isDir])
    | dir n es =>
      rw [FTV.buildForest]
      intro t ht
      rcases List.mem_cons.mp ht with h | h
      · rw [h]
        split <;> rfl
      · exact ih (fun e he => hl e (List.mem_cons_of_mem _ he)) t h

/-- Building from file entries yields file rows only. -/
theorem FTV.buildForest_all_file (ps : List String) (p : String) (l : List FS)
    (hl : ∀ e ∈ l, FS.isDir e = false) :
    ∀ t ∈ buildForest ps p l, t.isFileNode = true := by
  induction l with
  | nil =>
    rw [FTV.buildForest]
    intro t ht
    exact absurd ht (List.not_mem_nil t)
  | cons e rest ih =>
    cases e with
    | dir n es =>
      exact absurd (hl (.dir n es) (List.mem_cons_self _ _)) (by simp [FS.isDir])
    | file n =>
      rw [FTV.buildForest]
      intro t ht
      rcases List.mem_cons.mp ht with h | h
      · rw [h]
        rfl
      · exact ih (fun e he => hl e (List.mem_cons_of_mem _ he)) t h

/-- Each built row's stored path is the join of the entry name onto the
directory path, in listing order. -/
theorem FTV.buildForest_map_path' (ps : List String) (p : String) (l : List FS) :
    (buildForest ps p l).map TreeNode.path = l.map (fun e => pathJoin p e.name) := by
  induction l with
  | nil => rw [FTV.buildForest]; rfl
  | cons e rest ih =>
    cases e with
    | file n =>
      rw [FTV.buildForest, List.map_cons, List.map_cons, ih]
      rfl
    | dir n es =>
      rw [FTV.buildForest, List.map_cons, List.map_cons, ih]
      by_cases hn : (n == "node_modules") = true
      · rw [if_pos hn]; rfl
      · rw [if_neg hn]; rfl

/-- **C8 (counterexample).** The original claim fails for a listed
directory whose listing is empty: `os.listdir` succeeds and returns no
entries, and the walk then emits a single synthetic error row as the
directory's only child.  That child list is nonempty while the
directory's immediate ignore-filtered entries are empty, and the error
row is neither a subdirectory row nor a file row — so the emitted
children do not equal the ignore-filtered entries there. -/
theorem C8_counterexample :
    FTV.populate_tree [] "/r" [] = [.err FTV.errEmptyMsg]
    ∧ FTV.populate_tree [] "/r" [] ≠ []
    ∧ (([] : List FTV.FS).filter (FTV.keepEntry [] "/r")) = []
    ∧ (FTV.TreeNode.err FTV.errEmptyMsg).isDirNode = false
    ∧ (FTV.TreeNode.err FTV.errEmptyMsg).isFileNode = false := by
  have h : FTV.populate_tree [] "/r" [] = [.err FTV.errEmptyMsg] := by
    rw [FTV.populate_tree, if_pos (by rfl)]
  refine ⟨h, ?_, rfl, rfl, rfl⟩
  rw [h]
  simp

/-- **C8 (amended).** For a directory whose listing is *nonempty*, the
emitted children split as a block of directory rows followed by a block
of file rows; the two underlying entry groups are permutations of the
ignore-filtered directory entries and file entries respectively, each
group is sorted by case-insensitive name (never merged across the two
groups), and the rows correspond one-to-one, in order, to those entries
via their joined paths.  (For an empty listing the walk instead emits
the single synthetic error row — see the counterexample above.) -/
theorem FTV.C8_children_sorted_partitioned (ps : List String) (p : String)
    (entries : List FS) (hne : entries.isEmpty = false) :
    ∃ ds fs : List FS,
      populate_tree ps p entries = buildForest ps p ds ++ buildForest ps p fs
      ∧ (∀ e ∈ ds, FS.isDir e = true)
      ∧ (∀ e ∈ fs, FS.isDir e = false)
      ∧ List.Perm ds ((entries.filter (keepEntry ps p)).filter FS.isDir)
      ∧ List.Perm fs ((entries.filter (keepEntry ps p)).filter (fun e => !FS.isDir e))
      ∧ List.Pairwise (fun a b => lowerNameLt b a = false) ds
      ∧ List.Pairwise (fun a b => lowerNameLt b a = false) fs
      ∧ (∀ t ∈ buildForest ps p ds, t.isDirNode = true)
      ∧ (∀ t ∈ buildForest ps p fs, t.isFileNode = true)
      ∧ (buildForest ps p ds).map TreeNode.path = ds.map (fun e => pathJoin p e.name)
      ∧ (buildForest ps p fs).map TreeNode.path = fs.map (fun e => pathJoin p e.name) := by
  refine ⟨sortByLt lowerNameLt ((entries.filter (keepEntry ps p)).filter FS.isDir),
    sortByLt lowerNameLt ((entries.filter (keepEntry ps p)).filter (fun e => !FS.isDir e)),
    ?_, ?_, ?_, ?_, ?_, ?_, ?_, ?_, ?_, ?_, ?_⟩
  · rw [FTV.populate_tree, if_neg (by simp [hne]), FTV.childEntries,
      buildForest_append]
  · intro e he
    have := List.mem_filter.mp ((sortByLt_perm lowerNameLt _).mem_iff.mp he)
    exact this.2
  · intro e he
    have := List.mem_filter.mp ((sortByLt_perm lowerNameLt _).mem_iff.mp he)
    simpa using this.2
  · exact sortByLt_perm _ _
  · exact sortByLt_perm _ _
  · exact sortByLt_sorted lowerNameLt lowerNameLt_asymm lowerNameLt_le_trans _
  · exact sortByLt_sorted lowerNameLt lowerNameLt_asymm lowerNameLt_le_trans _
  · refine buildForest_all_dir ps p _ ?_
    intro e he
    exact (List.mem_filter.mp ((sortByLt_perm lowerNameLt _).mem_iff.mp he)).2
  · refine buildForest_all_file ps p _ ?_
    intro e he
    simpa using (List.mem_filter.mp ((sortByLt_perm lowerNameLt _).mem_iff.mp he)).2
  · exact buildForest_map_path' ps p _
  · exact buildForest_map_path' ps p _

/-- Witness for C8 on a concrete listing: one directory entry and two
files whose case-insensitive order differs from code-point order. -/
theorem C8_witness :
    (List.isEmpty [FTV.FS.file "b.TXT", FTV.FS.dir "ZZ" [], FTV.FS.file "a"] = false)
    ∧ ∃ ds fs : List FTV.FS,
      FTV.populate_tree [] "/r" [.file "b.TXT", .dir "ZZ" [], .file "a"] =
        FTV.buildForest [] "/r" ds ++ FTV.buildForest [] "/r" fs
      ∧ (∀ e ∈ ds, FTV.FS.isDir e = true)
      ∧ (∀ e ∈ fs, FTV.FS.isDir e = false)
      ∧ List.Perm ds ((([FTV.FS.file "b.TXT", FTV.FS.dir "ZZ" [], FTV.FS.file "a"] :
          List FTV.FS).filter (FTV.keepEntry [] "/r")).filter FTV.FS.isDir)
      ∧ List.Perm fs ((([FTV.FS.file "b.TXT", FTV.FS.dir "ZZ" [], FTV.FS.file "a"] :
          List FTV.FS).filter (FTV.keepEntry [] "/r")).filter (fun e => !FTV.FS.isDir e))
      ∧ List.Pairwise (fun a b => FTV.lowerNameLt b a = false) ds
      ∧ List.Pairwise (fun a b => FTV.lowerNameLt b a = false) fs
      ∧ (∀ t ∈ FTV.buildForest [] "/r" ds, t.isDirNode = true)
      ∧ (∀ t ∈ FTV.buildForest [] "/r" fs, t.isFileNode = true)
      ∧ (FTV.buildForest [] "/r" ds).map FTV.TreeNode.path =
          ds.map (fun e => FTV.pathJoin "/r" e.name)
      ∧ (FTV.buildForest [] "/r" fs).map FTV.TreeNode.path =
          fs.map (fun e => FTV.pathJoin "/r" e.name) :=
  ⟨by decide,
   FTV.C8_children_sorted_partitioned [] "/r" [.file "b.TXT", .dir "ZZ" [], .file "a"]
     (by decide)⟩

/-! ## Claim C5: the selection set and its operations

`niPaths` is the set of identities `update_children_check` can reach and
set: every non-ignored row, recursing only below non-ignored directories;
under the walk's invariant `wfTree` (ignored rows are childless) these
are exactly the identities of non-ignored rows (last conjunct of C5).
The lemmas below characterize membership in the result of every
selection operation. -/

/- Membership in `update_children_check true`: exactly the old members
plus every reachable non-ignored identity. -/

mutual
theorem FTV.mem_update_children_true (l : List TreeNode) (s : Finset String) (q : String) :
    q ∈ update_children_check true l s ↔ q ∈ s ∨ q ∈ niPaths l := by
  match l with
  | [] =>
    rw [update_children_check, niPaths]
    simp
  | c :: rest =>
    rw [update_children_check, niPaths]
    rw [mem_update_children_true rest _ q, mem_update_child_true c s q, List.mem_append]
    tauto

theorem FTV.mem_update_child_true (c : TreeNode) (s : Finset String) (q : String) :
    q ∈ update_child_check true c s ↔ q ∈ s ∨ q ∈ niPathsN c := by
  match c with
  | .err m =>
    rw [update_child_check, niPathsN]
    simp
  | .file p =>
    rw [update_child_check, niPathsN, if_pos rfl, Finset.mem_insert, List.mem_singleton]
    tauto
  | .dir p ign ch =>
    cases ign with
    | true =>
      rw [update_child_check, niPathsN, if_pos rfl, if_pos rfl]
      simp
    | false =>
      rw [update_child_check, niPathsN, if_neg (by simp), if_pos rfl, if_neg (by simp)]
      rw [mem_update_children_true ch _ q, Finset.mem_insert, List.mem_cons]
      tauto
end

mutual
/- Membership in `update_children_check false`: exactly the old members
that are not reachable non-ignored identities. -/
theorem FTV.mem_update_children_false (l : List TreeNode) (s : Finset String) (q : String) :
    q ∈ update_children_check false l s ↔ q ∈ s ∧ q ∉ niPaths l := by
  match l with
  | [] =>
    rw [update_children_check, niPaths]
    simp
  | c :: rest =>
    rw [update_children_check, niPaths]
    rw [mem_update_children_false rest _ q, mem_update_child_false c s q, List.mem_append]
    tauto

theorem FTV.mem_update_child_false (c : TreeNode) (s : Finset String) (q : String) :
    q ∈ update_child_check false c s ↔ q ∈ s ∧ q ∉ niPathsN c := by
  match c with
  | .err m =>
    rw [update_child_check, niPathsN]
    simp
  | .file p =>
    rw [update_child_check, niPathsN, if_neg (by simp), Finset.mem_erase, List.mem_singleton]
    tauto
  | .dir p ign ch =>
    cases ign with
    | true =>
      rw [update_child_check, niPathsN, if_pos rfl, if_pos rfl]
      simp
    | false =>
      rw [update_child_check, niPathsN, if_neg (by simp), if_neg (by simp), if_neg (by simp)]
      rw [mem_update_children_false ch _ q, Finset.mem_erase, List.mem_cons]
      tauto
end

/-- The `check_all` loop is `update_children_check true` over the
top-level rows. -/
theorem FTV.check_all_eq_update (l : List TreeNode) (s : Finset String) :
    check_all l s = update_children_check true l s := by
  induction l generalizing s with
  | nil => rfl
  | cons c rest ih =>
    cases c with
    | err m => exact ih s
    | file p => exact ih (insert p s)
    | dir p ign ch =>
      show check_all rest _ = update_children_check true rest _
      exact ih _

/-- The `uncheck_all` loop is `update_children_check false` over the
top-level rows. -/
theorem FTV.uncheck_all_eq_update (l : List TreeNode) (s : Finset String) :
    uncheck_all l s = update_children_check false l s := by
  induction l generalizing s with
  | nil => rfl
  | cons c rest ih =>
    cases c with
    | err m => exact ih s
    | file p => exact ih (s.erase p)
    | dir p ign ch =>
      show uncheck_all rest _ = update_children_check false rest _
      exact ih _

/- `findNode` only returns a non-error row whose stored path is the
looked-up identity. -/
mutual
theorem FTV.findNode_path (l : List TreeNode) (i : String) (n : TreeNode)
    (h : findNode l i = some n) : n.path = i ∧ n.isErr = false := by
  match l with
  | [] =>
    rw [findNode] at h
    exact absurd h (by simp)
  | c :: rest =>
    rw [findNode] at h
    cases hin : findNodeIn c i with
    | some r =>
      rw [hin] at h
      cases h
      exact findNodeIn_path c i n hin
    | none =>
      rw [hin] at h
      exact findNode_path rest i n h

theorem FTV.findNodeIn_path (c : TreeNode) (i : String) (n : TreeNode)
    (h : findNodeIn c i = some n) : n.path = i ∧ n.isErr = false := by
  match c with
  | .err m =>
    rw [findNodeIn] at h
    exact absurd h (by simp)
  | .file p =>
    rw [findNodeIn] at h
    by_cases hp : (p == i) = true
    · rw [if_pos hp] at h
      cases h
      exact ⟨by simpa using hp, rfl⟩
    · rw [if_neg hp] at h
      exact absurd h (by simp)
  | .dir p ign ch =>
    rw [findNodeIn] at h
    by_cases hp : (p == i) = true
    · rw [if_pos hp] at h
      cases h
      exact ⟨by simpa using hp, rfl⟩
    · rw [if_neg hp] at h
      exact findNode_path ch i n h
end

/- In a well-formed tree, a found non-ignored row's reachable
identities are reachable identities of the whole tree. -/
mutual
theorem FTV.findNode_ni_sub (l : List TreeNode) (i : String) (n : TreeNode)
    (h : findNode l i = some n) (hn : n.is_ignored = false) (hwf : wfTree l = true) :
    ∀ q ∈ niPathsN n, q ∈ niPaths l := by
  match l with
  | [] =>
    rw [findNode] at h
    exact absurd h (by simp)
  | c :: rest =>
    rw [findNode] at h
    rw [wfTree, Bool.and_eq_true] at hwf
    intro q hq
    rw [niPaths, List.mem_append]
    cases hin : findNodeIn c i with
    | some r =>
      rw [hin] at h
      cases h
      exact Or.inl (findNodeIn_ni_sub c i n hin hn hwf.1 q hq)
    | none =>
      rw [hin] at h
      exact Or.inr (findNode_ni_sub rest i n h hn hwf.2 q hq)

theorem FTV.findNodeIn_ni_sub (c : TreeNode) (i : String) (n : TreeNode)
    (h : findNodeIn c i = some n) (hn : n.is_ignored = false) (hwf : wfTreeN c = true) :
    ∀ q ∈ niPathsN n, q ∈ niPathsN c := by
  match c with
  | .err m =>
    rw [findNodeIn] at h
    exact absurd h (by simp)
  | .file p =>
    rw [findNodeIn] at h
    by_cases hp : (p == i) = true
    · rw [if_pos hp] at h
      cases h
      intro q hq
      exact hq
    · rw [if_neg hp] at h
      exact absurd h (by simp)
  | .dir p ign ch =>
    rw [findNodeIn] at h
    rw [wfTreeN, Bool.and_eq_true] at hwf
    by_cases hp : (p == i) = true
    · rw [if_pos hp] at h
      cases h
      intro q hq
      exact hq
    · rw [if_neg hp] at h
      cases ign with
      | true =>
        have hch : ch.isEmpty = true := by simpa using hwf.1
        rw [List.isEmpty_iff.mp hch] at h
        rw [findNode] at h
        exact absurd h (by simp)
      | false =>
        intro q hq
        rw [niPathsN, if_neg (by simp)]
        exact List.mem_cons_of_mem p (findNode_ni_sub ch i n h hn hwf.2 q hq)
end

/-- A non-ignored, non-error row's own identity is reachable in it. -/
theorem FTV.self_mem_niPathsN (n : TreeNode) (hn : n.is_ignored = false)
    (he : n.isErr = false) : n.path ∈ niPathsN n := by
  cases n with
  | err m => simp [TreeNode.isErr] at he
  | file p => rw [niPathsN, TreeNode.path]; exact List.mem_singleton.mpr rfl
  | dir p ign ch =>
    rw [TreeNode.is_ignored] at hn
    subst hn
    rw [niPathsN, if_neg (by simp), TreeNode.path]
    exact List.mem_cons_self p _

/- Reachable non-ignored identities are identities of rows. -/
mutual
theorem FTV.niPaths_sub_allPaths (l : List TreeNode) :
    ∀ q ∈ niPaths l, q ∈ allPaths l := by
  match l with
  | [] => intro q hq; exact hq
  | c :: rest =>
    intro q hq
    rw [niPaths, List.mem_append] at hq
    rw [allPaths, List.mem_append]
    rcases hq with h | h
    · exact Or.inl (niPathsN_sub_allPathsN c q h)
    · exact Or.inr (niPaths_sub_allPaths rest q h)

theorem FTV.niPathsN_sub_allPathsN (c : TreeNode) :
    ∀ q ∈ niPathsN c, q ∈ allPathsN c := by
  match c with
  | .err m => intro q hq; exact hq
  | .file p => intro q hq; exact hq
  | .dir p ign ch =>
    intro q hq
    rw [niPathsN] at hq
    rw [allPathsN]
    cases ign with
    | true => simp at hq
    | false =>
      rw [if_neg (by simp)] at hq
      rcases List.mem_cons.mp hq with h | h
      · exact h ▸ List.mem_cons_self p _
      · exact List.mem_cons_of_mem p (niPaths_sub_allPaths ch q h)
end

/- Ignored identities are identities of rows. -/
mutual
theorem FTV.ignoredPaths_sub_allPaths (l : List TreeNode) :
    ∀ q ∈ ignoredPaths l, q ∈ allPaths l := by
  match l with
  | [] => intro q hq; exact hq
  | c :: rest =>
    intro q hq
    rw [ignoredPaths, List.mem_append] at hq
    rw [allPaths, List.mem_append]
    rcases hq with h | h
    · exact Or.inl (ignoredPathsN_sub_allPathsN c q h)
    · exact Or.inr (ignoredPaths_sub_allPaths rest q h)

theorem FTV.ignoredPathsN_sub_allPathsN (c : TreeNode) :
    ∀ q ∈ ignoredPathsN c, q ∈ allPathsN c := by
  match c with
  | .err m => intro q hq; exact hq
  | .file p => intro q hq; simp [ignoredPathsN] at hq
  | .dir p ign ch =>
    intro q hq
    rw [ignoredPathsN, List.mem_append] at hq
    rw [allPathsN]
    rcases hq with h | h
    · cases ign with
      | true => exact (List.mem_singleton.mp (by simpa using h)) ▸ List.mem_cons_self p _
      | false => simp at h
    · exact List.mem_cons_of_mem p (ignoredPaths_sub_allPaths ch q h)
end

/- With pairwise-distinct row identities, an ignored row's identity is
never a reachable non-ignored identity. -/
mutual
theorem FTV.ignored_not_ni (l : List TreeNode) (hnd : (allPaths l).Nodup) :
    ∀ q ∈ ignoredPaths l, q ∉ niPaths l := by
  match l with
  | [] => intro q hq; simp [ignoredPaths] at hq
  | c :: rest =>
    intro q hq hni
    rw [allPaths] at hnd
    have hdisj := List.disjoint_of_nodup_append hnd
    have hnd1 := hnd.of_append_left
    have hnd2 := hnd.of_append_right
    rw [ignoredPaths, List.mem_append] at hq
    rw [niPaths, List.mem_append] at hni
    rcases hq with h | h <;> rcases hni with h' | h'
    · exact ignoredN_not_niN c hnd1 q h h'
    · exact hdisj (ignoredPathsN_sub_allPathsN c q h) (niPaths_sub_allPaths rest q h')
    · exact hdisj (niPathsN_sub_allPathsN c q h') (ignoredPaths_sub_allPaths rest q h)
    · exact ignored_not_ni rest hnd2 q h h'

theorem FTV.ignoredN_not_niN (c : TreeNode) (hnd : (allPathsN c).Nodup) :
    ∀ q ∈ ignoredPathsN c, q ∉ niPathsN c := by
  match c with
  | .err m => intro q hq; simp [ignoredPathsN] at hq
  | .file p => intro q hq; simp [ignoredPathsN] at hq
  | .dir p ign ch =>
    intro q hq hni
    rw [allPathsN, List.nodup_cons] at hnd
    rw [ignoredPathsN, List.mem_append] at hq
    rw [niPathsN] at hni
    cases ign with
    | true => simp at hni
    | false =>
      rw [if_neg (by simp)] at hni
      have hq' : q ∈ ignoredPaths ch := by
        rcases hq with h | h
        · simp at h
        · exact h
      rcases List.mem_cons.mp hni with h' | h'
      · exact hnd.1 (h' ▸ ignoredPaths_sub_allPaths ch q hq')
      · exact ignored_not_ni ch hnd.2 q hq' h'
end

/- In a well-formed tree every row identity is reachable-non-ignored or
ignored. -/
mutual
theorem FTV.all_mem_ni_or_ign (l : List TreeNode) (hwf : wfTree l = true) :
    ∀ q ∈ allPaths l, q ∈ niPaths l ∨ q ∈ ignoredPaths l := by
  match l with
  | [] => intro q hq; exact absurd hq (by simp [allPaths])
  | c :: rest =>
    rw [wfTree, Bool.and_eq_true] at hwf
    intro q hq
    rw [allPaths, List.mem_append] at hq
    rw [niPaths, ignoredPaths, List.mem_append, List.mem_append]
    rcases hq with h | h
    · rcases all_memN_ni_or_ign c hwf.1 q h with h' | h'
      · exact Or.inl (Or.inl h')
      · exact Or.inr (Or.inl h')
    · rcases all_mem_ni_or_ign rest hwf.2 q h with h' | h'
      · exact Or.inl (Or.inr h')
      · exact Or.inr (Or.inr h')

theorem FTV.all_memN_ni_or_ign (c : TreeNode) (hwf : wfTreeN c = true) :
    ∀ q ∈ allPathsN c, q ∈ niPathsN c ∨ q ∈ ignoredPathsN c := by
  match c with
  | .err m => intro q hq; exact absurd hq (by simp [allPathsN])
  | .file p =>
    intro q hq
    exact Or.inl hq
  | .dir p ign ch =>
    rw [wfTreeN, Bool.and_eq_true] at hwf
    intro q hq
    rw [allPathsN] at hq
    rw [niPathsN, ignoredPathsN]
    cases ign with
    | true =>
      have hch : ch = [] := List.isEmpty_iff.mp (by simpa using hwf.1)
      subst hch
      rcases List.mem_cons.mp hq with h | h
      · exact Or.inr (by simp [h])
      · exact absurd h (by simp [allPaths])
    | false =>
      rcases List.mem_cons.mp hq with h | h
      · exact Or.inl (by simp [h])
      · rcases all_mem_ni_or_ign ch hwf.2 q h with h' | h'
        · exact Or.inl (by simp [List.mem_cons, h'])
        · exact Or.inr (by simpa using h')
end

/-- `toggle_check` on an unknown identity leaves the selection alone. -/
theorem FTV.toggle_check_not_found (t : List TreeNode) (i : String) (s : Finset String)
    (hf : findNode t i = none) : toggle_check t i s = s := by
  unfold toggle_check
  rw [hf]

/-- `toggle_check` on an ignored row is a no-op. -/
theorem FTV.toggle_check_ignored (t : List TreeNode) (i : String) (s : Finset String)
    (n : TreeNode) (hf : findNode t i = some n) (hn : n.is_ignored = true) :
    toggle_check t i s = s := by
  unfold toggle_check
  rw [hf]
  simp [hn]

/-- The effect of `toggle_check` on a found non-ignored row, as a
function of the current membership of its identity. -/
theorem FTV.toggle_check_effect (t : List TreeNode) (i : String) (s : Finset String)
    (n : TreeNode) (hf : findNode t i = some n) (hn : n.is_ignored = false) :
    toggle_check t i s =
      if i ∈ s then
        (if n.isDirNode then update_children_check false n.children (s.erase i)
         else s.erase i)
      else
        (if n.isDirNode then update_children_check true n.children (insert i s)
         else insert i s) := by
  unfold toggle_check
  rw [hf]
  by_cases hi : i ∈ s <;> simp [hn, hi]

/-- **C5.** Over any well-formed tree (`wfTree`: ignored rows have no
children, as the walk guarantees): toggling an ignored row is a no-op;
toggling preserves the invariant that every selected identity is a
reachable non-ignored row identity (so the selection never contains an
ignored row); toggling a non-ignored directory row sets the new state on
exactly its reachable non-ignored identities — adding all of them when
the row was unchecked, removing all of them when it was checked — and
ignored identities stay out and unaffected; `check_all` adds exactly the
reachable non-ignored identities of the whole tree and `uncheck_all`
removes exactly them, with the same ignored-skip rule; and with distinct
row identities the reachable non-ignored identities are exactly the
identities of non-ignored rows. -/
theorem FTV.C5_selection_invariant (t : List TreeNode) (hwf : wfTree t = true) :
    (∀ (i : String) (s : Finset String) (n : TreeNode),
      findNode t i = some n → n.is_ignored = true → toggle_check t i s = s)
    ∧ (∀ (i : String) (s : Finset String), (∀ q ∈ s, q ∈ niPaths t) →
        ∀ q ∈ toggle_check t i s, q ∈ niPaths t)
    ∧ (∀ (i : String) (s : Finset String) (ch : List TreeNode),
        findNode t i = some (.dir i false ch) → i ∉ s →
        ∀ q, q ∈ toggle_check t i s ↔ (q ∈ s ∨ q = i ∨ q ∈ niPaths ch))
    ∧ (∀ (i : String) (s : Finset String) (ch : List TreeNode),
        findNode t i = some (.dir i false ch) → i ∈ s →
        ∀ q, q ∈ toggle_check t i s ↔ (q ∈ s ∧ ¬(q = i ∨ q ∈ niPaths ch)))
    ∧ (∀ (i : String) (s : Finset String), (allPaths t).Nodup →
        (∀ q ∈ s, q ∈ niPaths t) →
        ∀ q ∈ ignoredPaths t, q ∉ toggle_check t i s)
    ∧ (∀ (s : Finset String) (q : String), q ∈ check_all t s ↔ (q ∈ s ∨ q ∈ niPaths t))
    ∧ (∀ (s : Finset String) (q : String), q ∈ uncheck_all t s ↔ (q ∈ s ∧ q ∉ niPaths t))
    ∧ (∀ (s : Finset String), (allPaths t).Nodup → (∀ q ∈ s, q ∈ niPaths t) →
        ∀ q ∈ ignoredPaths t, q ∉ check_all t s ∧ q ∉ uncheck_all t s)
    ∧ ((allPaths t).Nodup →
        ∀ q, q ∈ niPaths t ↔ (q ∈ allPaths t ∧ q ∉ ignoredPaths t)) := by
  have inv2 : ∀ (i : String) (s : Finset String), (∀ q ∈ s, q ∈ niPaths t) →
      ∀ q ∈ toggle_check t i s, q ∈ niPaths t := by
    intro i s hinv q hq
    cases hfind : findNode t i with
    | none =>
      rw [toggle_check_not_found t i s hfind] at hq
      exact hinv q hq
    | some n =>
      cases hign : n.is_ignored with
      | true =>
        rw [toggle_check_ignored t i s n hfind hign] at hq
        exact hinv q hq
      | false =>
        have hpath := findNode_path t i n hfind
        have hsub := findNode_ni_sub t i n hfind hign hwf
        have hi : i ∈ niPaths t :=
          hpath.1 ▸ hsub n.path (self_mem_niPathsN n hign hpath.2)
        rw [toggle_check_effect t i s n hfind hign] at hq
        by_cases his : i ∈ s
        · rw [if_pos his] at hq
          by_cases hd : n.isDirNode = true
          · rw [if_pos hd] at hq
            have := (mem_update_children_false n.children _ q).mp hq
            exact hinv q (Finset.mem_of_mem_erase this.1)
          · rw [if_neg hd] at hq
            exact hinv q (Finset.mem_of_mem_erase hq)
        · rw [if_neg his] at hq
          by_cases hd : n.isDirNode = true
          · rw [if_pos hd] at hq
            rcases (mem_update_children_true n.children _ q).mp hq with h | h
            · rcases Finset.mem_insert.mp h with h' | h'
              · exact h' ▸ hi
              · exact hinv q h'
            · have hqn : q ∈ niPathsN n := by
                cases n with
                | dir p ign' ch =>
                  rw [TreeNode.is_ignored] at hign
                  subst hign
                  rw [niPathsN, if_neg (by simp)]
                  exact List.mem_cons_of_mem _ (by simpa [TreeNode.children] using h)
                | file p => simp [TreeNode.isDirNode] at hd
                | err m => simp [TreeNode.isDirNode] at hd
              exact hsub q hqn
          · rw [if_neg hd] at hq
            rcases Finset.mem_insert.mp hq with h' | h'
            · exact h' ▸ hi
            · exact hinv q h'
  have hca : ∀ (s : Finset String) (q : String),
      q ∈ check_all t s ↔ (q ∈ s ∨ q ∈ niPaths t) := by
    intro s q
    rw [check_all_eq_update, mem_update_children_true]
  have hua : ∀ (s : Finset String) (q : String),
      q ∈ uncheck_all t s ↔ (q ∈ s ∧ q ∉ niPaths t) := by
    intro s q
    rw [uncheck_all_eq_update, mem_update_children_false]
  refine ⟨toggle_check_ignored t, inv2, ?_, ?_, ?_, hca, hua, ?_, ?_⟩
  · intro i s ch hf his q
    rw [toggle_check_effect t i s _ hf rfl, if_neg his, if_pos (by rfl)]
    rw [show (TreeNode.dir i false ch).children = ch from rfl,
      mem_update_children_true, Finset.mem_insert]
    tauto
  · intro i s ch hf his q
    rw [toggle_check_effect t i s _ hf rfl, if_pos his, if_pos (by rfl)]
    rw [show (TreeNode.dir i false ch).children = ch from rfl,
      mem_update_children_false, Finset.mem_erase]
    tauto
  · intro i s hnd hinv q hqign hqmem
    exact ignored_not_ni t hnd q hqign (inv2 i s hinv q hqmem)
  · intro s hnd hinv q hqign
    constructor
    · intro hq
      rcases (hca s q).mp hq with h | h
      · exact ignored_not_ni t hnd q hqign (hinv q h)
      · exact ignored_not_ni t hnd q hqign h
    · intro hq
      exact ignored_not_ni t hnd q hqign (hinv q ((hua s q).mp hq).1)
  · intro hnd q
    constructor
    · intro h
      exact ⟨niPaths_sub_allPaths t q h, fun hig => ignored_not_ni t hnd q hig h⟩
    · rintro ⟨hall, hnig⟩
      rcases all_mem_ni_or_ign t hwf q hall with h | h
      · exact h
      · exact absurd h hnig

/-- Witness for C5 on a concrete tree: a non-ignored directory holding a
file and an ignored `node_modules`-style row, next to a top-level file. -/
theorem C5_witness :
    FTV.toggle_check
        [.dir "/r/d" false [.file "/r/d/x", .dir "/r/d/nm" true []], .file "/r/a"]
        "/r/d/nm" ∅ = ∅
    ∧ "/r/d/x" ∈ FTV.toggle_check
        [.dir "/r/d" false [.file "/r/d/x", .dir "/r/d/nm" true []], .file "/r/a"]
        "/r/d" ∅
    ∧ "/r/d/nm" ∉ FTV.toggle_check
        [.dir "/r/d" false [.file "/r/d/x", .dir "/r/d/nm" true []], .file "/r/a"]
        "/r/d" ∅
    ∧ "/r/a" ∈ FTV.check_all
        [.dir "/r/d" false [.file "/r/d/x", .dir "/r/d/nm" true []], .file "/r/a"] ∅
    ∧ "/r/d/x" ∉ FTV.uncheck_all
        [.dir "/r/d" false [.file "/r/d/x", .dir "/r/d/nm" true []], .file "/r/a"]
        (FTV.check_all
          [.dir "/r/d" false [.file "/r/d/x", .dir "/r/d/nm" true []], .file "/r/a"] ∅) := by
  obtain ⟨h1, h2, h3, h4, h5, h6, h7, h8, h9⟩ :=
    FTV.C5_selection_invariant
      [.dir "/r/d" false [.file "/r/d/x", .dir "/r/d/nm" true []], .file "/r/a"]
      (by decide)
  refine ⟨?_, ?_, ?_, ?_, ?_⟩
  · exact h1 "/r/d/nm" ∅ (.dir "/r/d/nm" true []) rfl rfl
  · exact (h3 "/r/d" ∅ [.file "/r/d/x", .dir "/r/d/nm" true []] rfl
      (Finset.not_mem_empty "/r/d") "/r/d/x").mpr (Or.inr (Or.inr (by decide)))
  · exact h5 "/r/d" ∅ (by decide)
      (fun q hq => absurd hq (Finset.not_mem_empty q)) "/r/d/nm" (by decide)
  · exact (h6 ∅ "/r/a").mpr (Or.inr (by decide))
  · intro hmem
    exact ((h7 _ "/r/d/x").mp hmem).2 (by decide)
